import Mathlib

/-!
Verification of the `iap_vault` on-chain program
(`src/program/iap_vault/programs/iap_vault/src/lib.rs`).

The program converts a user-encrypted 6-field interest profile from a
shared-secret encryption domain into a vault (MXE) encryption domain and
persists the re-encrypted result.  We embed the byte/field codec, the
`store_interest_profile` instruction body, the storage wrapper and its
serialization, and prove the specified properties.

External pieces (the Arcis field type, the confidential-computation engine,
the borsh serializer of `MXEEncryptedStruct`) are not in the repository;
they are modelled from the spec where a claim depends on them, as noted in
the doc comments below.  Field elements are represented as natural numbers
with explicit reduction `% p`; byte blocks are lists of naturals `< 256`.
-/

namespace IapVault

/-- Little-endian byte expansion: the `n` low base-256 digits of `v`. -/
def leBytes : Nat → Nat → List Nat
  | 0, _ => []
  | n + 1, v => v % 256 :: leBytes n (v / 256)

/-- The value of a little-endian byte list: `Σ byte[i] * 256^i`. -/
def fromLeBytes : List Nat → Nat
  | [] => 0
  | b :: rest => b + 256 * fromLeBytes rest

/-- Modelled from the spec: the engine field element's little-endian byte
serialization (`ArcisCiphertext::to_le_bytes`), which "returns 32 bytes
(256 bits)" per the source comment; canonical field values are below
`2^256`. -/
def to_le_bytes (f : Nat) : List Nat := leBytes 32 f

/-- `ArcisCiphertext::from(n)` for modulus `p`: the field element of the
natural number `n`, i.e. `n % p`. -/
def fieldFrom (p n : Nat) : Nat := n % p

/-- Field addition modulo `p`. -/
def fadd (p a b : Nat) : Nat := (a + b) % p

/-- Field multiplication modulo `p`. -/
def fmul (p a b : Nat) : Nat := (a * b) % p

/-- The accumulator loop of `bytes_to_field`: for each byte `b`,
`x = x + from(b) * factor; factor = factor * from(256)`. -/
def bytes_to_field_loop (p : Nat) : List Nat → Nat → Nat → Nat
  | [], x, _ => x
  | b :: rest, x, factor =>
      bytes_to_field_loop p rest (fadd p x (fmul p (fieldFrom p b) factor))
        (fmul p factor (fieldFrom p 256))

/-- `bytes_to_field` from the source: interprets a 32-byte block as a
little-endian base-256 expansion in the field of modulus `p`, starting
from `x = from(0)`, `factor = from(1)`. -/
def bytes_to_field (p : Nat) (s : List Nat) : Nat :=
  bytes_to_field_loop p s (fieldFrom p 0) (fieldFrom p 1)

/-- The ciphertext-output direction used at lines 74-77 of the source:
`f.to_le_bytes()` then `arr.copy_from_slice(&b[0..32])`, i.e. exactly the
first 32 bytes of the little-endian form. -/
def field_to_bytes_32 (f : Nat) : List Nat := (to_le_bytes f).take 32

/-- The nonce extraction at lines 63-66 of the source:
`nonce_arr.copy_from_slice(&nonce_bytes[0..16]); u128::from_le_bytes(...)`,
i.e. the first 16 little-endian bytes, read back as a little-endian
integer. -/
def nonce_from_field (f : Nat) : Nat := fromLeBytes ((to_le_bytes f).take 16)

/-- Models Rust's `&l[0..n]` range indexing, which panics (here: `none`)
when `n` exceeds the slice length. -/
def sliceTo (l : List Nat) (n : Nat) : Option (List Nat) :=
  if n ≤ l.length then some (l.take n) else none

/-- Modelled from the spec: an engine output value is either a base field
value (`EvalValue::Base`) or some other, non-base value; the program only
distinguishes these two shapes. -/
inductive EvalValue where
  | Base (f : Nat)
  | NonBase
  deriving DecidableEq

/-- The only error the instruction body returns:
`ProgramError::InvalidAccountData`. -/
inductive ProgramError where
  | InvalidAccountData
  deriving DecidableEq

/-- `MXEEncryptedStruct`: `{nonce: u128, ciphertexts: [[u8; 32]; LEN]}`
(here `LEN = 6`); the length and byte-range constraints appear as
hypotheses where needed. -/
structure MXEEncryptedStruct where
  nonce : Nat
  ciphertexts : List (List Nat)
  deriving DecidableEq

/-- The Clone-implementing wrapper around `MXEEncryptedStruct`. -/
structure MXEWrapper where
  inner : MXEEncryptedStruct
  deriving DecidableEq

/-- The on-chain account: owns exactly one wrapped vault ciphertext. -/
structure UserProfile where
  interest_profile : MXEWrapper
  deriving DecidableEq

/-- `SharedEncryptedStruct<6>`: the client's input — ciphertext blocks, an
x25519 encryption key, and a nonce. -/
structure SharedEncryptedStruct where
  ciphertexts : List (List Nat)
  encryption_key : List Nat
  nonce : Nat
  deriving DecidableEq

/-- The manual `Clone` impl for `MXEWrapper`: rebuilds the inner struct
from its `nonce` and `ciphertexts` fields. -/
def MXEWrapper.clone (w : MXEWrapper) : MXEWrapper :=
  { inner := { nonce := w.inner.nonce, ciphertexts := w.inner.ciphertexts } }

/-- Lines 25-28 of the source: the marshalled engine input
`enc_data_values`, one `EvalValue::Base (bytes_to_field block)` per input
ciphertext block, in input order. -/
def enc_data_values (p : Nat) (blocks : List (List Nat)) : List EvalValue :=
  blocks.map (fun cipher_bytes => EvalValue.Base (bytes_to_field p cipher_bytes))

/-- The ciphertext-extraction loop at lines 69-82 of the source: iterates
over the outputs after the nonce with counter `i`, breaking once `i >= 6`,
writing `field_to_bytes_32 f` into slot `i` for a `Base f` and failing on
any non-base value; `acc` starts as six all-zero blocks. -/
def extract_ciphertexts_loop :
    List EvalValue → Nat → List (List Nat) → Except ProgramError (List (List Nat))
  | [], _, acc => .ok acc
  | out :: rest, i, acc =>
    if 6 ≤ i then .ok acc
    else
      match out with
      | .Base f => extract_ciphertexts_loop rest (i + 1) (acc.set i (field_to_bytes_32 f))
      | .NonBase => .error .InvalidAccountData

/-- Lines 50-92 of the source, from the shape check on: validate that the
engine produced at least 7 output values, extract the nonce from output 0
(must be a base value), extract the six ciphertext blocks from outputs
1..6, and on success overwrite `state.interest_profile`; every failure
returns before the write. -/
def process_outputs (st : UserProfile) (outputs : List EvalValue) :
    Except ProgramError Unit × UserProfile :=
  if outputs.length < 7 then (.error .InvalidAccountData, st)
  else
    match outputs with
    | [] => (.error .InvalidAccountData, st)
    | nonce_out :: rest =>
      match nonce_out with
      | .NonBase => (.error .InvalidAccountData, st)
      | .Base nonce_field =>
        let nonce := nonce_from_field nonce_field
        match extract_ciphertexts_loop rest 0
            (List.replicate 6 (List.replicate 32 0)) with
        | .error e => (.error e, st)
        | .ok cts =>
          (.ok (), { st with interest_profile := ⟨⟨nonce, cts⟩⟩ })

/-- The body of the `store_interest_profile` instruction.  The external
confidential-computation engine (steps 2-3 of the source: reconstruct,
decrypt under the shared key, re-encrypt for the MXE, `handle_outputs`) is
opaque and appears as the function argument `engine`, mapping the
marshalled inputs (field values, encryption key, nonce) to the output
field sequence.  The result pairs the instruction's `Result` with the
account state after the call. -/
def store_interest_profile (p : Nat)
    (engine : List EvalValue → List Nat → Nat → List EvalValue)
    (st : UserProfile) (encrypted_profile : SharedEncryptedStruct) :
    Except ProgramError Unit × UserProfile :=
  process_outputs st
    (engine (enc_data_values p encrypted_profile.ciphertexts)
      encrypted_profile.encryption_key encrypted_profile.nonce)

/-- The deprecated `store_tier` instruction: its body is just `Ok(())`. -/
def store_tier (st : UserProfile) (encrypted_tier : SharedEncryptedStruct) :
    Except ProgramError Unit × UserProfile :=
  (.ok (), st)

/-- Concatenation of the ciphertext blocks, as laid out back-to-back in
the serialized form. -/
def concatBlocks : List (List Nat) → List Nat
  | [] => []
  | b :: rest => b ++ concatBlocks rest

/-- Modelled from the spec: the persisted wire format of
`MXEEncryptedStruct` — "nonce: 16 bytes little-endian, then
ciphertexts[0..6]: 32 bytes each", with no internal padding. -/
def MXEEncryptedStruct.serialize (s : MXEEncryptedStruct) : List Nat :=
  leBytes 16 s.nonce ++ concatBlocks s.ciphertexts

/-- The wrapper's `AnchorSerialize` delegates to the inner struct. -/
def MXEWrapper.serialize (w : MXEWrapper) : List Nat :=
  w.inner.serialize

/-- Splits a byte stream into `n` consecutive 32-byte blocks. -/
def chunksOf32 : Nat → List Nat → List (List Nat)
  | 0, _ => []
  | n + 1, l => l.take 32 :: chunksOf32 n (l.drop 32)

/-- Modelled from the spec: deserialization of the 208-byte wire format —
reads a 16-byte little-endian nonce, then six 32-byte blocks; fails if
fewer than 208 bytes are available. -/
def MXEEncryptedStruct.deserialize (l : List Nat) : Option MXEEncryptedStruct :=
  if 208 ≤ l.length then
    some ⟨fromLeBytes (l.take 16), chunksOf32 6 (l.drop 16)⟩
  else none

/-- The wrapper's `AnchorDeserialize` delegates to the inner struct. -/
def MXEWrapper.deserialize (l : List Nat) : Option MXEWrapper :=
  (MXEEncryptedStruct.deserialize l).map MXEWrapper.mk

/-- The `space` expression of the `StoreInterestProfile` account
constraint: `8 (discriminator) + 16 (nonce) + 32 * 6 (ciphertexts)`. -/
def StoreInterestProfile_space : Nat := 8 + 16 + 32 * 6

/-- Modelled from the spec: "a large prime p" — the concrete instance used
for witnesses and counterexamples is the x25519 base-field modulus
`2^255 - 19`, matching the `ArcisX25519Pubkey` key type of the source. -/
def x25519_field_modulus : Nat := 2 ^ 255 - 19

/-! ### Byte-codec lemmas -/

theorem leBytes_length (n v : Nat) : (leBytes n v).length = n := by
  induction n generalizing v with
  | zero => rfl
  | succ n ih => simp [leBytes, ih]

theorem leBytes_lt (n v : Nat) : ∀ x ∈ leBytes n v, x < 256 := by
  induction n generalizing v with
  | zero => simp [leBytes]
  | succ n ih =>
    intro x hx
    simp only [leBytes, List.mem_cons] at hx
    rcases hx with h | h
    · omega
    · exact ih _ x h

theorem fromLeBytes_leBytes (n v : Nat) : fromLeBytes (leBytes n v) = v % 256 ^ n := by
  induction n generalizing v with
  | zero => simp [leBytes, fromLeBytes, Nat.mod_one]
  | succ n ih =>
    simp only [leBytes, fromLeBytes, ih]
    rw [pow_succ', Nat.mod_mul]

theorem fromLeBytes_lt (l : List Nat) (hb : ∀ x ∈ l, x < 256) :
    fromLeBytes l < 256 ^ l.length := by
  induction l with
  | nil => simp [fromLeBytes]
  | cons b rest ih =>
    have hbb : b < 256 := hb b (List.mem_cons_self b rest)
    have hr : fromLeBytes rest < 256 ^ rest.length :=
      ih (fun x hx => hb x (List.mem_cons_of_mem b hx))
    simp only [fromLeBytes, List.length_cons, pow_succ]
    calc b + 256 * fromLeBytes rest < 256 * (fromLeBytes rest + 1) := by omega
      _ ≤ 256 * 256 ^ rest.length := by
          exact Nat.mul_le_mul_left 256 (by omega)
      _ = 256 ^ rest.length * 256 := by ring

theorem leBytes_fromLeBytes (l : List Nat) (hb : ∀ x ∈ l, x < 256) :
    leBytes l.length (fromLeBytes l) = l := by
  induction l with
  | nil => rfl
  | cons b rest ih =>
    have hbb : b < 256 := hb b (List.mem_cons_self b rest)
    simp only [List.length_cons, leBytes, fromLeBytes]
    have h0 : (b + 256 * fromLeBytes rest) % 256 = b := by omega
    have h1 : (b + 256 * fromLeBytes rest) / 256 = fromLeBytes rest := by omega
    rw [h0, h1, ih (fun x hx => hb x (List.mem_cons_of_mem b hx))]

theorem leBytes_take (m n v : Nat) : (leBytes (m + n) v).take m = leBytes m v := by
  induction m generalizing v with
  | zero => simp [leBytes]
  | succ m ih =>
    simp only [Nat.succ_add, leBytes, List.take_succ_cons]
    rw [ih]

theorem fromLeBytes_eq_sum (l : List Nat) :
    fromLeBytes l = ∑ i ∈ Finset.range l.length, l.getD i 0 * 256 ^ i := by
  induction l with
  | nil => simp [fromLeBytes]
  | cons b rest ih =>
    simp only [fromLeBytes, List.length_cons, ih]
    rw [Finset.sum_range_succ' (fun i => (b :: rest).getD i 0 * 256 ^ i) rest.length]
    simp only [List.getD_cons_succ, List.getD_cons_zero, pow_zero, mul_one]
    rw [Finset.mul_sum, Nat.add_comm]
    congr 1
    refine Finset.sum_congr rfl (fun i _ => ?_)
    rw [pow_succ]
    ring

/-! ### `bytes_to_field` characterization -/

theorem bytes_to_field_loop_eq (p : Nat) (s : List Nat) :
    ∀ x factor, bytes_to_field_loop p s (x % p) (factor % p) =
      (x + fromLeBytes s * factor) % p := by
  induction s with
  | nil => intro x factor; simp [bytes_to_field_loop, fromLeBytes]
  | cons b rest ih =>
    intro x factor
    simp only [bytes_to_field_loop, fadd, fmul, fieldFrom]
    have h1 : (x % p + b % p * (factor % p) % p) % p = (x + b * factor) % p := by
      conv_rhs => rw [Nat.add_mod, Nat.mul_mod]
    have h2 : (factor % p * (256 % p)) % p = (factor * 256) % p := by
      conv_rhs => rw [Nat.mul_mod]
    rw [h1, h2, ih (x + b * factor) (factor * 256)]
    congr 1
    simp only [fromLeBytes]
    ring

theorem bytes_to_field_eq (p : Nat) (s : List Nat) :
    bytes_to_field p s = fromLeBytes s % p := by
  have h := bytes_to_field_loop_eq p s 0 1
  simpa [bytes_to_field, fieldFrom] using h

/-! ### Instruction-body lemmas -/

theorem extract_ciphertexts_loop_error (l : List EvalValue) :
    ∀ (i : Nat) (acc : List (List Nat)),
      (∃ j, i + j < 6 ∧ l[j]? = some EvalValue.NonBase) →
      extract_ciphertexts_loop l i acc = .error .InvalidAccountData := by
  induction l with
  | nil =>
    rintro i acc ⟨j, _, hj⟩
    simp at hj
  | cons o rest ih =>
    rintro i acc ⟨j, hj6, hjNB⟩
    simp only [extract_ciphertexts_loop]
    rw [if_neg (by omega)]
    cases o with
    | NonBase => rfl
    | Base f =>
      cases j with
      | zero => simp at hjNB
      | succ j' =>
        refine ih (i + 1) _ ⟨j', by omega, ?_⟩
        simpa using hjNB

theorem process_outputs_shape_error (st : UserProfile) (outputs : List EvalValue)
    (hbad : outputs.length < 7 ∨
      ∃ i, i < 7 ∧ outputs[i]? = some EvalValue.NonBase) :
    process_outputs st outputs = (.error .InvalidAccountData, st) := by
  by_cases h7 : outputs.length < 7
  · simp only [process_outputs]
    rw [if_pos h7]
  · rcases hbad with hlen | ⟨i, hi7, hNB⟩
    · exact absurd hlen h7
    · cases outputs with
      | nil => simp at h7
      | cons o0 rest =>
        simp only [process_outputs]
        rw [if_neg h7]
        cases o0 with
        | NonBase => rfl
        | Base f =>
          cases i with
          | zero => simp at hNB
          | succ i' =>
            rw [extract_ciphertexts_loop_error rest 0 _
              ⟨i', by omega, by simpa using hNB⟩]

theorem process_outputs_cases (st : UserProfile) (outputs : List EvalValue) :
    (process_outputs st outputs).2 = st ∨
      (process_outputs st outputs).1 = Except.ok () := by
  simp only [process_outputs]
  split
  · exact Or.inl rfl
  · split
    · exact Or.inl rfl
    · split
      · exact Or.inl rfl
      · split
        · exact Or.inl rfl
        · exact Or.inr rfl

/-! ### Claim theorems -/

/-- C1 (counterexample): the byte/field round-trip fails as a universal
statement.  At the modulus `p = 2^255 - 19`, the 32-byte block that is the
little-endian representation of `p` itself decodes to the field element
`0`, whose first 32 little-endian bytes are all zero, not the original
block. -/
theorem roundtrip_fails_at_modulus_block :
    field_to_bytes_32 (bytes_to_field x25519_field_modulus
        (leBytes 32 x25519_field_modulus)) ≠
      leBytes 32 x25519_field_modulus := by decide

/-- C1 (amended): for every 32-byte block `b` whose little-endian value is
below the field modulus `p`, converting `b` to a field element with
`bytes_to_field` and taking the first 32 bytes of its little-endian form
yields `b` again; blocks whose value is `≥ p` are reduced modulo `p` and
do not round-trip. -/
theorem bytes_to_field_roundtrip_of_lt (p : Nat) (b : List Nat)
    (hlen : b.length = 32) (hbytes : ∀ x ∈ b, x < 256)
    (hlt : fromLeBytes b < p) :
    field_to_bytes_32 (bytes_to_field p b) = b := by
  rw [bytes_to_field_eq, Nat.mod_eq_of_lt hlt]
  unfold field_to_bytes_32 to_le_bytes
  have h32 : leBytes 32 (fromLeBytes b) = b := by
    rw [← hlen]; exact leBytes_fromLeBytes b hbytes
  rw [h32, List.take_of_length_le (by omega)]

/-- C1 (witness): the amended round-trip at the all-zero block and the
x25519 modulus. -/
theorem bytes_to_field_roundtrip_witness :
    fromLeBytes (List.replicate 32 0) < x25519_field_modulus ∧
      field_to_bytes_32 (bytes_to_field x25519_field_modulus
        (List.replicate 32 0)) = List.replicate 32 0 :=
  ⟨by decide,
   bytes_to_field_roundtrip_of_lt x25519_field_modulus (List.replicate 32 0)
     (by decide) (by decide) (by decide)⟩

/-- C5: `bytes_to_field` produces `(Σ byte[i] * 256^i) % p` (little-endian
base-256, reduction mod `p`), and the marshalled engine input applies it
to the input ciphertext blocks in order: input block position `i` yields
decoded field-element position `i`. -/
theorem bytes_to_field_le_base256_and_order (p : Nat) :
    (∀ b : List Nat, b.length = 32 →
      bytes_to_field p b = (∑ i ∈ Finset.range 32, b.getD i 0 * 256 ^ i) % p) ∧
    (∀ (blocks : List (List Nat)) (i : Nat) (h : i < blocks.length),
      (enc_data_values p blocks)[i]? =
        some (EvalValue.Base (bytes_to_field p blocks[i]))) := by
  constructor
  · intro b hb
    rw [bytes_to_field_eq, fromLeBytes_eq_sum, hb]
  · intro blocks i h
    simp [enc_data_values, List.getElem?_eq_getElem h]

/-- C5 (witness): the base-256 formula and order preservation at the
all-zero block. -/
theorem bytes_to_field_le_base256_and_order_witness :
    (List.replicate 32 0).length = 32 ∧
      bytes_to_field x25519_field_modulus (List.replicate 32 0) =
        (∑ i ∈ Finset.range 32, (List.replicate 32 0).getD i 0 * 256 ^ i) %
          x25519_field_modulus ∧
      (enc_data_values x25519_field_modulus [List.replicate 32 0])[0]? =
        some (EvalValue.Base
          (bytes_to_field x25519_field_modulus (List.replicate 32 0))) :=
  ⟨by decide,
   (bytes_to_field_le_base256_and_order x25519_field_modulus).1 _ (by decide),
   (bytes_to_field_le_base256_and_order x25519_field_modulus).2
     [List.replicate 32 0] 0 (by decide)⟩

/-- C6: the stored `u128` nonce is `fromLeBytes` of exactly the first 16
little-endian bytes of the nonce field element, i.e. its value modulo
`2^128`, independent of the high-order bytes; two field elements agreeing
on their low 16 little-endian bytes produce the same stored nonce. -/
theorem nonce_from_field_truncation :
    (∀ f : Nat, nonce_from_field f = f % 2 ^ 128) ∧
    (∀ f g : Nat, (to_le_bytes f).take 16 = (to_le_bytes g).take 16 →
      nonce_from_field f = nonce_from_field g) := by
  constructor
  · intro f
    have h : ((2 : Nat) ^ 128) = 256 ^ 16 := by norm_num
    rw [h]
    unfold nonce_from_field to_le_bytes
    rw [show (32 : Nat) = 16 + 16 from rfl, leBytes_take, fromLeBytes_leBytes]
  · intro f g h
    unfold nonce_from_field
    rw [h]

/-- C6 (witness): nonce truncation at concrete field elements; `2^200 + 5`
and `5` agree on their low 16 bytes and produce the same stored nonce. -/
theorem nonce_from_field_truncation_witness :
    nonce_from_field (2 ^ 200 + 5) = (2 ^ 200 + 5) % 2 ^ 128 ∧
      nonce_from_field (2 ^ 200 + 5) = nonce_from_field (2 ^ 200 + 5) :=
  ⟨nonce_from_field_truncation.1 (2 ^ 200 + 5),
   nonce_from_field_truncation.2 (2 ^ 200 + 5) (2 ^ 200 + 5) rfl⟩

/-- C8: `MXEWrapper::clone` rebuilds the inner struct from its `nonce` and
`ciphertexts` fields, so it is the identity on the wrapped data. -/
theorem MXEWrapper_clone_eq (w : MXEWrapper) : w.clone = w := rfl

/-- C9: when the field element's little-endian byte form has at least 32
bytes, the range indexings `[0..16]` and `[0..32]` used for the nonce and
the ciphertext blocks are in bounds (never `none`, i.e. never a panic) and
are pure truncations, and the extracted slices have exactly the 16- and
32-byte lengths the destination arrays require. -/
theorem slice_extractions_in_bounds (f : Nat)
    (h : 32 ≤ (to_le_bytes f).length) :
    sliceTo (to_le_bytes f) 16 = some ((to_le_bytes f).take 16) ∧
      sliceTo (to_le_bytes f) 32 = some ((to_le_bytes f).take 32) ∧
      ((to_le_bytes f).take 16).length = 16 ∧
      ((to_le_bytes f).take 32).length = 32 := by
  refine ⟨?_, ?_, ?_, ?_⟩
  · unfold sliceTo; rw [if_pos (by omega)]
  · unfold sliceTo; rw [if_pos h]
  · rw [List.length_take]; omega
  · rw [List.length_take]; omega

/-- C9 (witness): the slice extractions at the field element `0`. -/
theorem slice_extractions_in_bounds_witness :
    32 ≤ (to_le_bytes 0).length ∧
      sliceTo (to_le_bytes 0) 16 = some ((to_le_bytes 0).take 16) :=
  ⟨by decide, (slice_extractions_in_bounds 0 (by decide)).1⟩

/-- C10: the deprecated `store_tier` instruction returns `Ok(())` and
performs no write: the account state, and in particular its
`interest_profile`, is returned unchanged for every input. -/
theorem store_tier_is_noop (st : UserProfile) (e : SharedEncryptedStruct) :
    store_tier st e = (Except.ok (), st) ∧
      (store_tier st e).2.interest_profile = st.interest_profile :=
  ⟨rfl, rfl⟩

/-! ### Serialization lemmas and C7 -/

theorem concatBlocks_length (bs : List (List Nat))
    (hb : ∀ b ∈ bs, b.length = 32) :
    (concatBlocks bs).length = 32 * bs.length := by
  induction bs with
  | nil => rfl
  | cons b rest ih =>
    simp only [concatBlocks, List.length_append, List.length_cons,
      hb b (List.mem_cons_self b rest),
      ih (fun x hx => hb x (List.mem_cons_of_mem b hx))]
    ring

theorem chunksOf32_concatBlocks (bs : List (List Nat))
    (hb : ∀ b ∈ bs, b.length = 32) :
    chunksOf32 bs.length (concatBlocks bs) = bs := by
  induction bs with
  | nil => rfl
  | cons b rest ih =>
    have hbl : b.length = 32 := hb b (List.mem_cons_self b rest)
    simp only [List.length_cons, chunksOf32, concatBlocks]
    have ht : (b ++ concatBlocks rest).take 32 = b := by
      rw [← hbl]; exact List.take_left b _
    have hd : (b ++ concatBlocks rest).drop 32 = concatBlocks rest := by
      rw [← hbl]; exact List.drop_left b _
    rw [ht, hd, ih (fun x hx => hb x (List.mem_cons_of_mem b hx))]

/-- C7: the account is created with reserved space exactly
`216 = 8 + 208` bytes, and for every well-formed wrapper (nonce below
`2^128`, six 32-byte blocks) the wire format is the 16-byte little-endian
nonce followed by the six blocks — 208 bytes, no padding — and
serialization followed by deserialization round-trips the wrapper. -/
theorem storage_layout_roundtrip :
    StoreInterestProfile_space = 8 + 208 ∧
    ∀ w : MXEWrapper, w.inner.nonce < 2 ^ 128 →
      w.inner.ciphertexts.length = 6 →
      (∀ b ∈ w.inner.ciphertexts, b.length = 32) →
      w.serialize.length = 208 ∧
        w.serialize =
          leBytes 16 w.inner.nonce ++ concatBlocks w.inner.ciphertexts ∧
        MXEWrapper.deserialize w.serialize = some w := by
  refine ⟨rfl, ?_⟩
  rintro ⟨⟨nonce, cts⟩⟩ hn h6 hb
  simp only at hn h6 hb
  have hlen : (MXEWrapper.serialize ⟨⟨nonce, cts⟩⟩).length = 208 := by
    simp only [MXEWrapper.serialize, MXEEncryptedStruct.serialize,
      List.length_append, leBytes_length, concatBlocks_length cts hb, h6]
  refine ⟨hlen, rfl, ?_⟩
  simp only [MXEWrapper.deserialize, MXEWrapper.serialize,
    MXEEncryptedStruct.deserialize, MXEEncryptedStruct.serialize]
  rw [if_pos (by
    simp only [List.length_append, leBytes_length,
      concatBlocks_length cts hb, h6]
    norm_num)]
  have h16 : (leBytes 16 nonce).length = 16 := leBytes_length 16 nonce
  have htake : (leBytes 16 nonce ++ concatBlocks cts).take 16 =
      leBytes 16 nonce := by
    rw [← h16]; exact List.take_left _ _
  have hdrop : (leBytes 16 nonce ++ concatBlocks cts).drop 16 =
      concatBlocks cts := by
    rw [← h16]; exact List.drop_left _ _
  rw [htake, hdrop, fromLeBytes_leBytes]
  have hmod : nonce % 256 ^ 16 = nonce :=
    Nat.mod_eq_of_lt (by norm_num at hn ⊢; omega)
  rw [hmod, ← h6, chunksOf32_concatBlocks cts hb]
  rfl

/-- C7 (witness): the layout round-trip at the all-zero wrapper. -/
theorem storage_layout_roundtrip_witness :
    (MXEWrapper.mk ⟨0, List.replicate 6 (List.replicate 32 0)⟩).serialize.length
        = 208 ∧
      MXEWrapper.deserialize
          (MXEWrapper.mk ⟨0, List.replicate 6 (List.replicate 32 0)⟩).serialize =
        some (MXEWrapper.mk ⟨0, List.replicate 6 (List.replicate 32 0)⟩) :=
  ⟨(storage_layout_roundtrip.2 _ (by decide) (by decide) (by decide)).1,
   (storage_layout_roundtrip.2 _ (by decide) (by decide) (by decide)).2.2⟩

/-! ### C2, C3, C4: instruction behaviour -/

/-- C2 (code bug): an engine output of 8 field elements — count differing
from the expected 7 — is not rejected: `store_interest_profile` returns
`Ok(())` and stores the nonce from element 0 and the blocks from elements
1..6, silently dropping element 7 (the loop breaks at `i >= 6`; only
`outputs.len() < 7` is checked). -/
theorem store_interest_profile_truncates_extra_outputs :
    store_interest_profile x25519_field_modulus
        (fun _ _ _ => [.Base 1, .Base 2, .Base 3, .Base 4, .Base 5, .Base 6,
          .Base 7, .Base 8])
        ⟨⟨⟨0, []⟩⟩⟩ ⟨[], [], 0⟩ =
      (.ok (), ⟨⟨⟨1, [field_to_bytes_32 2, field_to_bytes_32 3,
        field_to_bytes_32 4, field_to_bytes_32 5, field_to_bytes_32 6,
        field_to_bytes_32 7]⟩⟩⟩) := rfl

/-- C3: if the engine's output has fewer than 7 elements, or any of the
consumed elements (positions 0..6) is not a base field value, the
instruction returns the decode error `InvalidAccountData` and the account
state is exactly the prior state — nothing is stored. -/
theorem store_interest_profile_shape_error (p : Nat)
    (engine : List EvalValue → List Nat → Nat → List EvalValue)
    (st : UserProfile) (input : SharedEncryptedStruct)
    (outputs : List EvalValue)
    (houtputs : outputs = engine (enc_data_values p input.ciphertexts)
      input.encryption_key input.nonce)
    (hbad : outputs.length < 7 ∨
      ∃ i, i < 7 ∧ outputs[i]? = some EvalValue.NonBase) :
    store_interest_profile p engine st input =
      (.error .InvalidAccountData, st) := by
  unfold store_interest_profile
  rw [← houtputs]
  exact process_outputs_shape_error st outputs hbad

/-- C3 (witness): a 6-element engine output (missing the nonce slot) is
rejected and the prior state is preserved. -/
theorem store_interest_profile_shape_error_witness :
    store_interest_profile x25519_field_modulus
        (fun _ _ _ => List.replicate 6 (.Base 0)) ⟨⟨⟨1, []⟩⟩⟩ ⟨[], [], 0⟩ =
      (.error .InvalidAccountData, ⟨⟨⟨1, []⟩⟩⟩) :=
  store_interest_profile_shape_error x25519_field_modulus _ _ _
    (List.replicate 6 (.Base 0)) rfl (Or.inl (by decide))

/-- C4: whenever `store_interest_profile` fails (returns any error), the
account state after the call is exactly the state before it — the write
happens only on the all-steps-succeed path, so there are no partial
writes. -/
theorem store_interest_profile_error_preserves_state (p : Nat)
    (engine : List EvalValue → List Nat → Nat → List EvalValue)
    (st : UserProfile) (input : SharedEncryptedStruct) (e : ProgramError)
    (h : (store_interest_profile p engine st input).1 = .error e) :
    (store_interest_profile p engine st input).2 = st := by
  rcases process_outputs_cases st
      (engine (enc_data_values p input.ciphertexts) input.encryption_key
        input.nonce) with h2 | h2
  · exact h2
  · unfold store_interest_profile at h
    rw [h2] at h
    cases h

/-- C4 (witness): a failing call (non-base nonce slot) leaves the prior
state untouched. -/
theorem store_interest_profile_error_preserves_state_witness :
    (store_interest_profile x25519_field_modulus
        (fun _ _ _ => .NonBase :: List.replicate 6 (.Base 0))
        ⟨⟨⟨9, [List.replicate 32 1]⟩⟩⟩ ⟨[], [], 0⟩).2 =
      ⟨⟨⟨9, [List.replicate 32 1]⟩⟩⟩ :=
  store_interest_profile_error_preserves_state x25519_field_modulus _ _ _
    .InvalidAccountData rfl

end IapVault
